import Mathlib

/-!
Verification of the extraction logic of `scraper/scrape_jonas.py`
(manuscript-catalog scraper).  The HTML layer is shallowly embedded as a
tree of nodes; each Python function operating on the parsed document is
translated into a computable Lean function over that tree, and the
heuristic field-extraction components (label resolver, title parser,
contents extractor, saint tagger, derived fields) are then proved correct
or refuted against the informal specification.
-/

/-! ## Python-style string primitives -/

/-- Whitespace as recognised by Python `str.strip` / `\s` (ASCII range). -/
def pyIsSpace (c : Char) : Bool :=
  c == ' ' || c == '\t' || c == '\n' || c == '\r' || c == '\x0b' || c == '\x0c'

/-- `str.strip()` on a character list: drop whitespace on both ends. -/
def stripL (l : List Char) : List Char :=
  ((l.dropWhile pyIsSpace).reverse.dropWhile pyIsSpace).reverse

/-- `str.lower()` (ASCII letters, which is all the scraper compares). -/
def lowerL (l : List Char) : List Char := l.map Char.toLower

/-- `l` starts with `pat` (Python `str.startswith`). -/
def startsL (l pat : List Char) : Bool :=
  match pat, l with
  | [], _ => true
  | _ :: _, [] => false
  | p :: ps, c :: cs => p == c && startsL cs ps

/-- `pat` occurs as a contiguous substring of `hay` (Python `in`). -/
def hasSub (hay pat : List Char) : Bool :=
  match hay with
  | [] => pat.isEmpty
  | _ :: t => startsL hay pat || hasSub t pat

/-- Split on a single separator character, keeping empty pieces
(Python `str.split("|")` behaviour, including `[""]` on empty input). -/
def splitOnBar : List Char → List (List Char)
  | [] => [[]]
  | c :: rest =>
    if c == '|' then [] :: splitOnBar rest
    else
      match splitOnBar rest with
      | p :: ps => (c :: p) :: ps
      | [] => [[c]]

/-- Split on whitespace runs, dropping empty words (Python `str.split()`,
used by the HTML library for multi-valued `class` attributes). -/
def splitWSAux : List Char → List Char → List (List Char)
  | [], acc => if acc.isEmpty then [] else [acc.reverse]
  | c :: rest, acc =>
    if pyIsSpace c then
      if acc.isEmpty then splitWSAux rest [] else acc.reverse :: splitWSAux rest []
    else splitWSAux rest (c :: acc)

def splitWS (l : List Char) : List (List Char) := splitWSAux l []

/-! ## The document tree

A parsed HTML document: text nodes and element nodes with a tag name,
an attribute list and children.  This is the abstract interface the
scraper uses from BeautifulSoup: descendant traversal in document order,
following-sibling lookup by tag, ancestor walking, attribute access and
text extraction. -/

inductive Node where
  | text : String → Node
  | elem : String → List (String × String) → List Node → Node

/-- Attribute lookup (`tag.get(key)`), `none` on text nodes. -/
def attrOf (n : Node) (key : String) : Option String :=
  match n with
  | .text _ => none
  | .elem _ attrs _ => (attrs.find? (fun p => p.1 == key)).map Prod.snd

/-- Does this node have the given element tag?  Text nodes never match. -/
def tagIs (t : String) (n : Node) : Bool :=
  match n with
  | .text _ => false
  | .elem tg _ _ => tg == t

mutual
/-- All descendant text-node contents of a node, in document order. -/
def strsN : Node → List (List Char)
  | .text s => [s.data]
  | .elem _ _ cs => strsL cs

def strsL : List Node → List (List Char)
  | [] => []
  | c :: rest => strsN c ++ strsL rest
end

/-- `get_text(separator=sep, strip=True)`: each descendant string is
stripped, empty results are dropped, and the rest joined with `sep`. -/
def getTextL (sep : List Char) (n : Node) : List Char :=
  List.intercalate sep (((strsN n).map stripL).filter (fun l => !l.isEmpty))

def getTextS (sep : String) (n : Node) : String :=
  String.mk (getTextL sep.data n)

mutual
/-- Every descendant of a node (the node itself excluded, as in
`tag.find_all`), in document order, each paired with the list of its
later siblings (what `find_next_sibling` searches). -/
def descWF : Node → List (Node × List Node)
  | .text _ => []
  | .elem _ _ cs => listWF cs

def listWF : List Node → List (Node × List Node)
  | [] => []
  | c :: rest => (c, rest) :: (descWF c ++ listWF rest)
end

/-- `find_next_sibling(t)`: first later sibling with tag `t`
(text-node siblings and other tags are skipped). -/
def nextTag (t : String) (sibs : List Node) : Option Node :=
  sibs.find? (fun n => tagIs t n)

/-! ## Label Resolver: `get_field` -/

/-- Strategy 1 of `get_field`: scan the document's `dt` elements; on the
first one whose stripped lowercased text contains the label and which has
a following `dd` sibling, return that sibling's text. -/
def strat1 : List (Node × List Node) → List Char → Option String
  | [], _ => none
  | (d, fol) :: rest, ll =>
    if hasSub (lowerL (getTextL [] d)) ll then
      match nextTag "dd" fol with
      | some dd => some (getTextS " " dd)
      | none => strat1 rest ll
    else strat1 rest ll

/-- Strategy 2 of `get_field`: as strategy 1 with `th` headers and their
following `td` cells. -/
def strat2 : List (Node × List Node) → List Char → Option String
  | [], _ => none
  | (d, fol) :: rest, ll =>
    if hasSub (lowerL (getTextL [] d)) ll then
      match nextTag "td" fol with
      | some td => some (getTextS " " td)
      | none => strat2 rest ll
    else strat2 rest ll

/-- Strategy 3 of `get_field`: scan `td` cells of text length below 80
containing the label; return the text of the following `td` sibling
provided that text is non-empty, else keep scanning. -/
def strat3 : List (Node × List Node) → List Char → Option String
  | [], _ => none
  | (d, fol) :: rest, ll =>
    let t := getTextL [] d
    if hasSub (lowerL t) ll && decide (t.length < 80) then
      match nextTag "td" fol with
      | some sib =>
        let v := getTextS " " sib
        if v == "" then strat3 rest ll else some v
      | none => strat3 rest ll
    else strat3 rest ll

/-- `get_field(soup, label)`: try the three strategies in order, falling
through to the next only when the previous one found nothing; empty
string when none produced a result. -/
def get_field (root : Node) (label : String) : String :=
  let ll := lowerL label.data
  match strat1 ((descWF root).filter (fun p => tagIs "dt" p.1)) ll with
  | some s => s
  | none =>
    match strat2 ((descWF root).filter (fun p => tagIs "th" p.1)) ll with
    | some s => s
    | none =>
      match strat3 ((descWF root).filter (fun p => tagIs "td" p.1)) ll with
      | some s => s
      | none => ""

/-! ## Title Parser: `clean_title` -/

structure TitleParts where
  author : String
  title : String
deriving DecidableEq

/-- `clean_title(raw_title)`: split on the bar separator, strip each
segment, discard segments that announce an incipit reference, then keep
the single remaining segment as the title, or the first two as author
and title; with no segment left, the raw string itself is the title. -/
def clean_title (raw_title : String) : TitleParts :=
  let parts := (splitOnBar raw_title.data).map stripL
  let parts := parts.filter (fun p => !(startsL p "Incipit référence".data))
  match parts with
  | [p] => ⟨"", String.mk p⟩
  | p0 :: p1 :: _ => ⟨String.mk p0, String.mk p1⟩
  | [] => ⟨"", raw_title⟩

/-! ## The regular expressions of the scraper, as deterministic matchers

Each of the four patterns used by the scraper has the property that its
greedy quantifiers never need backtracking (every optional or starred
element consumes characters that the following element could not accept),
so each is faithfully rendered as a deterministic maximal-munch matcher.
-/

/-- Leftmost match of `oeuvre=(\d+)` (`re.search`): the returned value is
the capture group, the maximal digit run after the first `oeuvre=` that
is followed by at least one digit. -/
def oeuvreMatchAt (l : List Char) : Option String :=
  if l.take 7 = "oeuvre=".data then
    let ds := (l.drop 7).takeWhile Char.isDigit
    if ds.isEmpty then none else some (String.mk ds)
  else none

def oeuvreSearchL : List Char → Option String
  | [] => none
  | c :: t =>
    match oeuvreMatchAt (c :: t) with
    | some s => some s
    | none => oeuvreSearchL t

/-- Leftmost match of `\d+` (`re.search` in the dimensions computation):
the maximal digit run starting at the first digit. -/
def digitSearchL : List Char → Option String
  | [] => none
  | c :: t =>
    if c.isDigit then some (String.mk (c :: t.takeWhile Char.isDigit))
    else digitSearchL t

/-- `re.match(r"(\d+e\s*s\.?)", date)`: anchored at the start; digits,
the letter e, optional whitespace, the letter s, an optional period.
Returns the matched span. -/
def dateShortMatch (l : List Char) : Option (List Char) :=
  let ds := l.takeWhile Char.isDigit
  if ds.isEmpty then none
  else
    match l.drop ds.length with
    | 'e' :: r2 =>
      let sp := r2.takeWhile pyIsSpace
      match r2.drop sp.length with
      | 's' :: r4 =>
        some (ds ++ 'e' :: sp ++ 's' :: (if r4.take 1 = ['.'] then ['.'] else []))
      | _ => none
    | _ => none

/-- The `date_short` computation of the record builder: the leading
century match if present, else the first 12 characters of the date. -/
def date_short_of (date_str : String) : String :=
  match dateShortMatch date_str.data with
  | some m => String.mk m
  | none => String.mk (date_str.data.take 12)

/-- The dimensions computation of the record builder: when both fields
are non-empty, take the first integer run of each and format them,
empty otherwise (also when a non-empty field holds no digit). -/
def dimensions_of (height_mm width_mm : String) : String :=
  if height_mm ≠ "" ∧ width_mm ≠ "" then
    match digitSearchL height_mm.data, digitSearchL width_mm.data with
    | some h, some w => h ++ " × " ++ w ++ " mm"
    | _, _ => ""
  else ""

/-! The folio-range pattern
`f(?:f)?\.?\s*(\d+\s*[rv]?[ab]?)\s*[-–—]\s*(?:f(?:f)?\.?\s*)?(\d+\s*[rv]?[ab]?)`
with `re.IGNORECASE`. -/

def isFolF (c : Char) : Bool := c == 'f' || c == 'F'
def isFolRV (c : Char) : Bool := c == 'r' || c == 'v' || c == 'R' || c == 'V'
def isFolAB (c : Char) : Bool := c == 'a' || c == 'b' || c == 'A' || c == 'B'
def isDash (c : Char) : Bool := c == '-' || c == '–' || c == '—'

/-- Consume one leading character satisfying `p`, if present. -/
def optC (p : Char → Bool) : List Char → List Char
  | [] => []
  | c :: r => if p c then r else c :: r

/-- Consume a non-empty digit run, or fail. -/
def digits1 (l : List Char) : Option (List Char) :=
  let ds := l.takeWhile Char.isDigit
  if ds.isEmpty then none else some (l.drop ds.length)

/-- Attempt the folio-range pattern anchored at the head of `l`;
on success return the number of characters consumed (the span of
`group(0)`). -/
def folioMatchAt (l : List Char) : Option Nat :=
  match l with
  | [] => none
  | c :: r =>
    if isFolF c then
      let r := optC isFolF r
      let r := optC (fun d => d == '.') r
      let r := r.dropWhile pyIsSpace
      match digits1 r with
      | none => none
      | some r1 =>
        let r := (optC isFolAB (optC isFolRV (r1.dropWhile pyIsSpace))).dropWhile pyIsSpace
        match r with
        | [] => none
        | d :: r2 =>
          if isDash d then
            let r := r2.dropWhile pyIsSpace
            let r :=
              match r with
              | c2 :: r3 =>
                if isFolF c2 then
                  ((optC (fun e => e == '.') (optC isFolF r3)).dropWhile pyIsSpace)
                else c2 :: r3
              | [] => []
            match digits1 r with
            | none => none
            | some r4 => some (l.length - (optC isFolAB (optC isFolRV (r4.dropWhile pyIsSpace))).length)
          else none
    else none

/-- Leftmost folio-range match over the whole text (`re.search`):
returns `group(0)`, the full matched span. -/
def folioSearchL : List Char → Option (List Char)
  | [] => none
  | c :: t =>
    match folioMatchAt (c :: t) with
    | some n => some ((c :: t).take n)
    | none => folioSearchL t


/-! ## Contents Extractor: `parse_contents` -/

structure Work where
  author : String
  title : String
  raw_title : String
  jonas_oeuvre_url : String
  folio : String
  date : String
  incipit : String
  explicit : String
deriving DecidableEq

/-- A hyperlink whose target matches the fixed work-detail URL pattern
(`find_all("a", href=re.compile(...))`): an `a` element carrying an
`href` attribute containing the literal pattern. -/
def isWorkLink (n : Node) : Bool :=
  tagIs "a" n &&
    (match attrOf n "href" with
     | some h => hasSub h.data "/consulter/oeuvre/detail_oeuvre.php".data
     | none => false)

mutual
/-- Work links among the strict descendants of a node, in document
order, each paired with its ancestor stack (nearest ancestor first). -/
def linksDesc (n : Node) (anc : List Node) : List (Node × List Node) :=
  match n with
  | .text _ => []
  | .elem t a cs => linksList cs (.elem t a cs :: anc)

def linksList (cs : List Node) (anc : List Node) : List (Node × List Node) :=
  match cs with
  | [] => []
  | c :: rest =>
    (if isWorkLink c then [(c, anc)] else []) ++ linksDesc c anc ++ linksList rest anc
end

/-- The relative-URL rewrite of `parse_contents`: a `../../` target loses
its first five characters, any other target starting with `..` loses all
leading dots, anything else passes through. -/
def normalizeHrefL (h : List Char) : List Char :=
  if startsL h "../../".data then h.drop 5
  else if startsL h "..".data then h.dropWhile (fun c => c == '.')
  else h

/-- The ancestor walk of `parse_contents`: starting at the parent, check
at most six ancestors for a `div` whose classes include `temoin`; when
none of the six matches, the walk stops at the seventh ancestor whatever
it is, and only a walk that runs past the root yields nothing. -/
def isTemoin (n : Node) : Bool :=
  tagIs "div" n && (splitWS ((attrOf n "class").getD "").data).any (fun w => w == "temoin".data)

def containerWalk : Nat → List Node → Option Node
  | _, [] => none
  | 0, c :: _ => some c
  | fuel + 1, c :: rest => if isTemoin c then some c else containerWalk fuel rest

def containerOf (anc : List Node) : Option Node := containerWalk 6 anc

/-- One step of the label/value cell scan inside the entry container:
examine one `td` together with its later siblings and update the work's
metadata fields accordingly. -/
def scanTd (w : Work) (td : Node) (fol : List Node) : Work :=
  let tdt := lowerL (getTextL [] td)
  match nextTag "td" fol with
  | none => w
  | some next_td =>
    let next_val := getTextS " " next_td
    if hasSub tdt "folio".data && decide (tdt.length < 40) then
      { w with folio := String.mk (next_val.data.take 100) }
    else if hasSub tdt "datation".data || (hasSub tdt "date".data && hasSub tdt "tation".data) then
      { w with date := String.mk (next_val.data.take 100) }
    else if startsL tdt "incipit".data && decide (tdt.length < 50) then
      { w with incipit := String.mk (next_val.data.take 400) }
    else if startsL tdt "explicit".data && decide (tdt.length < 50) then
      { w with explicit := String.mk (next_val.data.take 400) }
    else w

mutual
/-- `container.find_all("td")` with following siblings: every `td`
descendant of the node, in document order, paired with its later
siblings. -/
def tdsDesc (n : Node) : List (Node × List Node) :=
  match n with
  | .text _ => []
  | .elem _ _ cs => tdsList cs

def tdsList (cs : List Node) : List (Node × List Node) :=
  match cs with
  | [] => []
  | c :: rest =>
    (if tagIs "td" c then [(c, rest)] else []) ++ tdsDesc c ++ tdsList rest
end

def oeuvreUrlBase : String :=
  "https://jonas.irht.cnrs.fr/consulter/oeuvre/detail_oeuvre.php?oeuvre="

/-- The entry as first assembled by the link loop: title fields from the
link text via `clean_title`, the reference URL from the fixed template,
metadata fields empty. -/
def workBase (link : Node) (oid : String) : Work :=
  { author := (clean_title (getTextS "" link)).author,
    title := (clean_title (getTextS "" link)).title,
    raw_title := getTextS "" link,
    jonas_oeuvre_url := oeuvreUrlBase ++ oid,
    folio := "", date := "", incipit := "", explicit := "" }

/-- The metadata pass over the entry container: the label/value cell
scan, then the folio regex fallback on the container's full text when
the folio field is still empty. -/
def applyContainer (container : Node) (base : Work) : Work :=
  let container_text := getTextL " ".data container
  let w := (tdsDesc container).foldl (fun w p => scanTd w p.1 p.2) base
  if w.folio = "" then
    match folioSearchL container_text with
    | some m => { w with folio := String.mk (stripL m) }
    | none => w
  else w

/-- Build one work entry from a surviving link: the base entry, enriched
with metadata from the entry container when the ancestor walk finds a
node to scan. -/
def mkWork (link : Node) (anc : List Node) (oid : String) : Work :=
  match containerOf anc with
  | none => workBase link oid
  | some container => applyContainer container (workBase link oid)

/-- The link loop of `parse_contents`, threading the set of oeuvre
identifiers already seen.  The `useNorm` flag selects whether the
relative-URL rewrite is applied before the identifier search (the source
applies it; the flag exists to state its irrelevance). -/
def processLinks (useNorm : Bool) : List (Node × List Node) → List String → List Work
  | [], _ => []
  | (link, anc) :: rest, seen =>
    let href0 := (attrOf link "href").getD ""
    if href0 = "" then processLinks useNorm rest seen
    else
      let href := if useNorm then normalizeHrefL href0.data else href0.data
      match oeuvreSearchL href with
      | none => processLinks useNorm rest seen
      | some oid =>
        if oid ∈ seen then processLinks useNorm rest seen
        else mkWork link anc oid :: processLinks useNorm rest (oid :: seen)

/-- `parse_contents(soup)`. -/
def parse_contents (root : Node) : List Work :=
  processLinks true (linksDesc root []) []

/-- The variant of `parse_contents` that skips the relative-URL rewrite,
used to state that the rewrite never changes the output. -/
def parse_contents_norw (root : Node) : List Work :=
  processLinks false (linksDesc root []) []

/-! ## Saint Tagger: `identify_saints` -/

/-- Does any keyword of the list, lowercased, occur in the lowercased
title? (the inner keyword loop of `identify_saints`). -/
def anyKw (titleLower : List Char) (kws : List String) : Bool :=
  kws.any (fun kw => hasSub titleLower (lowerL kw.data))

/-- `identify_saints(contents, saint_keywords)`: for each work in order
and each table entry in order, append the saint identifier the first
time one of its keywords is found in the lowercased work title. -/
def identify_saints (contents : List Work) (saint_keywords : List (String × List String)) :
    List String :=
  contents.foldl
    (fun found w =>
      saint_keywords.foldl
        (fun found p =>
          if p.1 ∈ found then found
          else if anyKw (lowerL w.title.data) p.2 then found ++ [p.1] else found)
        found)
    []

/-- The keyword table shipped with the scraper. -/
def saintKeywords : List (String × List String) :=
  [("saint-martin", ["martin"]),
   ("saint-catherine", ["catherine", "katherina"]),
   ("saint-nicholas", ["nicolas", "nicholas", "nicolai"]),
   ("saint-margaret", ["marguerite", "margaret", "margareta"])]

/-! ## Helper functions for stating the claims -/

/-- The per-link validity computation of `parse_contents`: a link
contributes a candidate entry when its (rewritten) target contains an
oeuvre identifier. -/
def validTriple (p : Node × List Node) : Option (Node × List Node × String) :=
  let href0 := (attrOf p.1 "href").getD ""
  if href0 = "" then none
  else (oeuvreSearchL (normalizeHrefL href0.data)).map (fun oid => (p.1, p.2, oid))

/-- Keep only the first candidate for each oeuvre identifier, given a set
of identifiers already seen. -/
def dedupTriples : List (Node × List Node × String) → List String → List (Node × List Node × String)
  | [], _ => []
  | t :: rest, seen =>
    if t.2.2 ∈ seen then dedupTriples rest seen
    else t :: dedupTriples rest (t.2.2 :: seen)

/-- First-occurrence deduplication with an accumulator of already-found
identifiers (appending new ones at the end). -/
def dedupAcc : List String → List String → List String
  | [], found => found
  | s :: rest, found => if s ∈ found then dedupAcc rest found else dedupAcc rest (found ++ [s])

/-- The saint identifiers whose keyword set matches one work's title,
in keyword-table order. -/
def matchedSaints (w : Work) (table : List (String × List String)) : List String :=
  (table.filter (fun p => anyKw (lowerL w.title.data) p.2)).map Prod.fst

/-- The segment list `clean_title` interprets: bar-separated segments,
stripped, with incipit-reference segments discarded. -/
def segsOf (raw : String) : List (List Char) :=
  ((splitOnBar raw.data).map stripL).filter (fun p => !(startsL p "Incipit référence".data))

/-! ## Concrete example documents -/

/-- A document on which strategy 1 of `get_field` matches a `dt` whose
`dd` sibling has empty text, while the `td`/`td` strategy would find a
non-empty value. -/
def exDoc1 : Node :=
  .elem "html" []
    [ .elem "dl" [] [ .elem "dt" [] [.text "Langue"], .elem "dd" [] [] ],
      .elem "table" [] [ .elem "tr" []
        [ .elem "td" [] [.text "Langue"], .elem "td" [] [.text "français"] ] ] ]

/-- A single work entry in a `temoin` container whose text carries a
folio range with the `ff.` leading form. -/
def exDoc3 : Node :=
  .elem "html" []
    [ .elem "div" [("class", "temoin")]
      [ .elem "a" [("href", "../../consulter/oeuvre/detail_oeuvre.php?oeuvre=123")] [.text "Titre"],
        .text " ff. 12v-45r " ] ]

/-- As `exDoc3`, but the folio range in the container text lacks the
`f`/`ff` marker entirely. -/
def exDoc3b : Node :=
  .elem "html" []
    [ .elem "div" [("class", "temoin")]
      [ .elem "a" [("href", "/consulter/oeuvre/detail_oeuvre.php?oeuvre=123")] [.text "T"],
        .text " 12v-45r " ] ]

/-- A work link buried under six non-`temoin` ancestors; the seventh
ancestor holds a `folios` label/value cell pair.  No `temoin` container
exists anywhere in the document. -/
def exDoc2 : Node :=
  .elem "html" []
    [ .elem "div" []
      [ .elem "table" [] [ .elem "tr" []
          [ .elem "td" [] [.text "folios"], .elem "td" [] [.text "1r-2v"] ] ],
        .elem "span" [] [.elem "span" [] [.elem "span" [] [.elem "span" []
          [.elem "span" [] [.elem "span" []
            [ .elem "a" [("href", "/consulter/oeuvre/detail_oeuvre.php?oeuvre=77")] [.text "T"] ]]]]]] ] ]

/-- A work link sitting directly under the document root: the ancestor
walk runs past the root without finding a container. -/
def exDoc2w : Node :=
  .elem "html" []
    [ .elem "a" [("href", "/consulter/oeuvre/detail_oeuvre.php?oeuvre=5")] [.text "T"] ]

/-- A `temoin` container whose text holds a folio range whose first
reference has 101 digits, so that the regex fallback stores a span of
104 characters. -/
def exDoc4 : Node :=
  .elem "html" []
    [ .elem "div" [("class", "temoin")]
      [ .elem "a" [("href", "/consulter/oeuvre/detail_oeuvre.php?oeuvre=9")] [.text "T"],
        .text "f12345678901234567890123456789012345678901234567890123456789012345678901234567890123456789012345678901-2" ] ]

/-- Two works titled after saint Martin and saint Catherine. -/
def exWorks7 : List Work :=
  [ { author := "", title := "Vie de saint Martin", raw_title := "",
      jonas_oeuvre_url := "", folio := "", date := "", incipit := "", explicit := "" },
    { author := "", title := "Vie de sainte Catherine", raw_title := "",
      jonas_oeuvre_url := "", folio := "", date := "", incipit := "", explicit := "" } ]

/-! ## Lemmas about the contents extractor -/

lemma processLinks_eq (links : List (Node × List Node)) (seen : List String) :
    processLinks true links seen =
      (dedupTriples (links.filterMap validTriple) seen).map (fun t => mkWork t.1 t.2.1 t.2.2) := by
  induction links generalizing seen with
  | nil => rfl
  | cons p rest ih =>
    obtain ⟨link, anc⟩ := p
    show (if (attrOf link "href").getD "" = "" then processLinks true rest seen
          else match oeuvreSearchL (normalizeHrefL ((attrOf link "href").getD "").data) with
               | none => processLinks true rest seen
               | some oid =>
                 if oid ∈ seen then processLinks true rest seen
                 else mkWork link anc oid :: processLinks true rest (oid :: seen)) = _
    by_cases h0 : (attrOf link "href").getD "" = ""
    · rw [if_pos h0, List.filterMap_cons]
      have hv : validTriple (link, anc) = none := by
        unfold validTriple
        rw [if_pos h0]
      rw [hv, ih]
    · rw [if_neg h0, List.filterMap_cons]
      have hv : validTriple (link, anc) =
          (oeuvreSearchL (normalizeHrefL ((attrOf link "href").getD "").data)).map
            (fun oid => (link, anc, oid)) := by
        unfold validTriple
        rw [if_neg h0]
      cases hs : oeuvreSearchL (normalizeHrefL ((attrOf link "href").getD "").data) with
      | none =>
        rw [hv, hs]
        exact ih seen
      | some oid =>
        rw [hv, hs]
        change (if oid ∈ seen then processLinks true rest seen
                else mkWork link anc oid :: processLinks true rest (oid :: seen)) =
          (if oid ∈ seen then dedupTriples (rest.filterMap validTriple) seen
           else (link, anc, oid) :: dedupTriples (rest.filterMap validTriple) (oid :: seen)).map
            (fun t => mkWork t.1 t.2.1 t.2.2)
        by_cases hm : oid ∈ seen
        · rw [if_pos hm, if_pos hm, ih]
        · rw [if_neg hm, if_neg hm, List.map_cons, ih]

lemma dedupTriples_ids (l : List (Node × List Node × String)) (seen : List String) :
    ((dedupTriples l seen).map (fun t => t.2.2)).Nodup ∧
      ∀ oid ∈ (dedupTriples l seen).map (fun t => t.2.2), oid ∉ seen := by
  induction l generalizing seen with
  | nil => exact ⟨List.nodup_nil, by intro oid hm; simp [dedupTriples] at hm⟩
  | cons t rest ih =>
    by_cases hm : t.2.2 ∈ seen
    · have hstep : dedupTriples (t :: rest) seen = dedupTriples rest seen := by
        show (if t.2.2 ∈ seen then dedupTriples rest seen
              else t :: dedupTriples rest (t.2.2 :: seen)) = _
        rw [if_pos hm]
      rw [hstep]
      exact ⟨(ih seen).1, fun oid h => (ih seen).2 oid h⟩
    · have hstep : dedupTriples (t :: rest) seen = t :: dedupTriples rest (t.2.2 :: seen) := by
        show (if t.2.2 ∈ seen then dedupTriples rest seen
              else t :: dedupTriples rest (t.2.2 :: seen)) = _
        rw [if_neg hm]
      rw [hstep, List.map_cons]
      obtain ⟨hnd, hni⟩ := ih (t.2.2 :: seen)
      refine ⟨List.nodup_cons.mpr ⟨fun hmem => (hni _ hmem) (List.mem_cons_self _ _), hnd⟩, ?_⟩
      intro oid hmem
      rcases List.mem_cons.mp hmem with h | h
      · exact h ▸ hm
      · exact fun hin => (hni _ h) (List.mem_cons_of_mem _ hin)

lemma scanTd_fields (w : Work) (td : Node) (fol : List Node) :
    (scanTd w td fol).author = w.author ∧ (scanTd w td fol).title = w.title ∧
      (scanTd w td fol).raw_title = w.raw_title ∧
      (scanTd w td fol).jonas_oeuvre_url = w.jonas_oeuvre_url := by
  unfold scanTd
  cases nextTag "td" fol with
  | none => exact ⟨rfl, rfl, rfl, rfl⟩
  | some n =>
    dsimp only
    split
    · exact ⟨rfl, rfl, rfl, rfl⟩
    split
    · exact ⟨rfl, rfl, rfl, rfl⟩
    split
    · exact ⟨rfl, rfl, rfl, rfl⟩
    split
    · exact ⟨rfl, rfl, rfl, rfl⟩
    · exact ⟨rfl, rfl, rfl, rfl⟩

lemma foldl_scanTd_fields (tds : List (Node × List Node)) (w : Work) :
    (tds.foldl (fun w p => scanTd w p.1 p.2) w).author = w.author ∧
      (tds.foldl (fun w p => scanTd w p.1 p.2) w).title = w.title ∧
      (tds.foldl (fun w p => scanTd w p.1 p.2) w).raw_title = w.raw_title ∧
      (tds.foldl (fun w p => scanTd w p.1 p.2) w).jonas_oeuvre_url = w.jonas_oeuvre_url := by
  induction tds generalizing w with
  | nil => exact ⟨rfl, rfl, rfl, rfl⟩
  | cons p rest ih =>
    rw [List.foldl_cons]
    obtain ⟨h1, h2, h3, h4⟩ := ih (scanTd w p.1 p.2)
    obtain ⟨g1, g2, g3, g4⟩ := scanTd_fields w p.1 p.2
    exact ⟨h1.trans g1, h2.trans g2, h3.trans g3, h4.trans g4⟩

lemma scanTd_bnd (w : Work) (td : Node) (fol : List Node)
    (h : w.date.length ≤ 100 ∧ w.incipit.length ≤ 400 ∧ w.explicit.length ≤ 400) :
    (scanTd w td fol).date.length ≤ 100 ∧ (scanTd w td fol).incipit.length ≤ 400 ∧
      (scanTd w td fol).explicit.length ≤ 400 := by
  unfold scanTd
  cases nextTag "td" fol with
  | none => exact h
  | some n =>
    dsimp only
    split
    · exact h
    split
    · exact ⟨List.length_take_le _ _, h.2.1, h.2.2⟩
    split
    · exact ⟨h.1, List.length_take_le _ _, h.2.2⟩
    split
    · exact ⟨h.1, h.2.1, List.length_take_le _ _⟩
    · exact h

lemma foldl_scanTd_bnd (tds : List (Node × List Node)) (w : Work)
    (h : w.date.length ≤ 100 ∧ w.incipit.length ≤ 400 ∧ w.explicit.length ≤ 400) :
    (tds.foldl (fun w p => scanTd w p.1 p.2) w).date.length ≤ 100 ∧
      (tds.foldl (fun w p => scanTd w p.1 p.2) w).incipit.length ≤ 400 ∧
      (tds.foldl (fun w p => scanTd w p.1 p.2) w).explicit.length ≤ 400 := by
  induction tds generalizing w with
  | nil => exact h
  | cons p rest ih =>
    rw [List.foldl_cons]
    exact ih (scanTd w p.1 p.2) (scanTd_bnd w p.1 p.2 h)

lemma applyContainer_bnd (container : Node) (base : Work)
    (h : base.date.length ≤ 100 ∧ base.incipit.length ≤ 400 ∧ base.explicit.length ≤ 400) :
    (applyContainer container base).date.length ≤ 100 ∧
      (applyContainer container base).incipit.length ≤ 400 ∧
      (applyContainer container base).explicit.length ≤ 400 := by
  unfold applyContainer
  dsimp only
  have hb := foldl_scanTd_bnd (tdsDesc container) base h
  split
  · cases folioSearchL (getTextL " ".data container) with
    | none => exact hb
    | some m => exact hb
  · exact hb

lemma applyContainer_fields (container : Node) (base : Work) :
    (applyContainer container base).author = base.author ∧
      (applyContainer container base).title = base.title ∧
      (applyContainer container base).raw_title = base.raw_title ∧
      (applyContainer container base).jonas_oeuvre_url = base.jonas_oeuvre_url := by
  unfold applyContainer
  dsimp only
  obtain ⟨h1, h2, h3, h4⟩ := foldl_scanTd_fields (tdsDesc container) base
  split
  · cases folioSearchL (getTextL " ".data container) with
    | none => exact ⟨h1, h2, h3, h4⟩
    | some m => exact ⟨h1, h2, h3, h4⟩
  · exact ⟨h1, h2, h3, h4⟩

lemma mkWork_bnd (link : Node) (anc : List Node) (oid : String) :
    (mkWork link anc oid).date.length ≤ 100 ∧ (mkWork link anc oid).incipit.length ≤ 400 ∧
      (mkWork link anc oid).explicit.length ≤ 400 := by
  unfold mkWork
  cases containerOf anc with
  | none => exact ⟨Nat.zero_le _, Nat.zero_le _, Nat.zero_le _⟩
  | some container =>
    exact applyContainer_bnd container (workBase link oid)
      ⟨Nat.zero_le _, Nat.zero_le _, Nat.zero_le _⟩

lemma mkWork_fields (link : Node) (anc : List Node) (oid : String) :
    (mkWork link anc oid).raw_title = getTextS "" link ∧
      (mkWork link anc oid).author = (clean_title (getTextS "" link)).author ∧
      (mkWork link anc oid).title = (clean_title (getTextS "" link)).title ∧
      (mkWork link anc oid).jonas_oeuvre_url = oeuvreUrlBase ++ oid := by
  unfold mkWork
  cases containerOf anc with
  | none => exact ⟨rfl, rfl, rfl, rfl⟩
  | some container =>
    obtain ⟨h1, h2, h3, h4⟩ := applyContainer_fields container (workBase link oid)
    exact ⟨h3, h1, h2, h4⟩

lemma mkWork_noContainer (link : Node) (anc : List Node) (oid : String)
    (h : containerOf anc = none) :
    (mkWork link anc oid).folio = "" ∧ (mkWork link anc oid).date = "" ∧
      (mkWork link anc oid).incipit = "" ∧ (mkWork link anc oid).explicit = "" := by
  unfold mkWork
  rw [h]
  exact ⟨rfl, rfl, rfl, rfl⟩

/-! ## Lemmas about the URL rewrite and the identifier search -/

lemma startsL_decomp (l pat : List Char) (h : startsL l pat = true) :
    l = pat ++ l.drop pat.length := by
  induction pat generalizing l with
  | nil => simp
  | cons p ps ih =>
    cases l with
    | nil => simp [startsL] at h
    | cons c cs =>
      have h' : p = c ∧ startsL cs ps = true := by
        have hh : (p == c && startsL cs ps) = true := h
        simpa using hh
      obtain ⟨hpc, h2⟩ := h'
      subst hpc
      show p :: cs = (p :: ps) ++ (p :: cs).drop (p :: ps).length
      have hd : (p :: cs).drop (p :: ps).length = cs.drop ps.length := by simp
      rw [hd, List.cons_append]
      exact congrArg (p :: ·) (ih cs h2)

lemma oeuvreSearchL_cons (c : Char) (t : List Char) (h : ¬ c = 'o') :
    oeuvreSearchL (c :: t) = oeuvreSearchL t := by
  have hm : oeuvreMatchAt (c :: t) = none := by
    unfold oeuvreMatchAt
    rw [if_neg]
    intro heq
    rw [show (7 : Nat) = 6 + 1 from rfl, List.take_succ_cons] at heq
    rw [show "oeuvre=".data = 'o' :: "euvre=".data from rfl] at heq
    exact h (List.cons_eq_cons.mp heq).1
  show (match oeuvreMatchAt (c :: t) with
        | some s => some s
        | none => oeuvreSearchL t) = oeuvreSearchL t
  rw [hm]

lemma oeuvreSearchL_dropDots (l : List Char) :
    oeuvreSearchL (l.dropWhile (fun c => c == '.')) = oeuvreSearchL l := by
  induction l with
  | nil => rfl
  | cons c t ih =>
    by_cases hc : c = '.'
    · subst hc
      have hd : List.dropWhile (fun c => c == '.') ('.' :: t) =
          List.dropWhile (fun c => c == '.') t := by
        simp [List.dropWhile_cons]
      rw [hd, ih, oeuvreSearchL_cons '.' t (by decide)]
    · have hd : List.dropWhile (fun c => c == '.') (c :: t) = c :: t := by
        simp [List.dropWhile_cons, hc]
      rw [hd]

lemma oeuvreSearchL_norm (h : List Char) :
    oeuvreSearchL (normalizeHrefL h) = oeuvreSearchL h := by
  unfold normalizeHrefL
  by_cases h1 : startsL h "../../".data = true
  · rw [if_pos h1]
    obtain ⟨t, rfl⟩ : ∃ t, h = "../../".data ++ t := ⟨h.drop 6, startsL_decomp h "../../".data h1⟩
    have e1 : oeuvreSearchL ('.' :: '.' :: '/' :: '.' :: '.' :: '/' :: t) =
        oeuvreSearchL ('/' :: t) := by
      rw [oeuvreSearchL_cons '.' _ (by decide), oeuvreSearchL_cons '.' _ (by decide),
        oeuvreSearchL_cons '/' _ (by decide), oeuvreSearchL_cons '.' _ (by decide),
        oeuvreSearchL_cons '.' _ (by decide)]
    show oeuvreSearchL (List.drop 5 ('.' :: '.' :: '/' :: '.' :: '.' :: '/' :: t)) =
      oeuvreSearchL ('.' :: '.' :: '/' :: '.' :: '.' :: '/' :: t)
    rw [show List.drop 5 ('.' :: '.' :: '/' :: '.' :: '.' :: '/' :: t) = '/' :: t from rfl, e1]
  · rw [if_neg h1]
    by_cases h2 : startsL h "..".data = true
    · rw [if_pos h2]
      exact oeuvreSearchL_dropDots h
    · rw [if_neg h2]

lemma processLinks_norm (links : List (Node × List Node)) (seen : List String) :
    processLinks true links seen = processLinks false links seen := by
  induction links generalizing seen with
  | nil => rfl
  | cons p rest ih =>
    obtain ⟨link, anc⟩ := p
    show (if (attrOf link "href").getD "" = "" then processLinks true rest seen
          else match oeuvreSearchL (normalizeHrefL ((attrOf link "href").getD "").data) with
               | none => processLinks true rest seen
               | some oid =>
                 if oid ∈ seen then processLinks true rest seen
                 else mkWork link anc oid :: processLinks true rest (oid :: seen)) =
         (if (attrOf link "href").getD "" = "" then processLinks false rest seen
          else match oeuvreSearchL ((attrOf link "href").getD "").data with
               | none => processLinks false rest seen
               | some oid =>
                 if oid ∈ seen then processLinks false rest seen
                 else mkWork link anc oid :: processLinks false rest (oid :: seen))
    rw [oeuvreSearchL_norm]
    by_cases h0 : (attrOf link "href").getD "" = ""
    · rw [if_pos h0, if_pos h0, ih]
    · rw [if_neg h0, if_neg h0]
      cases oeuvreSearchL ((attrOf link "href").getD "").data with
      | none => exact ih seen
      | some oid =>
        by_cases hm : oid ∈ seen
        · show (if oid ∈ seen then _ else _) = (if oid ∈ seen then _ else _)
          rw [if_pos hm, if_pos hm, ih]
        · show (if oid ∈ seen then _ else _) = (if oid ∈ seen then _ else _)
          rw [if_neg hm, if_neg hm, ih]

/-! ## Lemmas about the saint tagger -/

lemma saintStep_eq (w : Work) (table : List (String × List String)) (found : List String) :
    table.foldl
        (fun found p =>
          if p.1 ∈ found then found
          else if anyKw (lowerL w.title.data) p.2 then found ++ [p.1] else found)
        found =
      dedupAcc (matchedSaints w table) found := by
  induction table generalizing found with
  | nil => rfl
  | cons p rest ih =>
    rw [List.foldl_cons]
    by_cases hkw : anyKw (lowerL w.title.data) p.2 = true
    · have hr : matchedSaints w (p :: rest) = p.1 :: matchedSaints w rest := by
        unfold matchedSaints
        rw [List.filter_cons, if_pos hkw, List.map_cons]
      rw [hr]
      show List.foldl _
          (if p.1 ∈ found then found
           else if anyKw (lowerL w.title.data) p.2 then found ++ [p.1] else found) rest =
        (if p.1 ∈ found then dedupAcc (matchedSaints w rest) found
         else dedupAcc (matchedSaints w rest) (found ++ [p.1]))
      by_cases hm : p.1 ∈ found
      · rw [if_pos hm, if_pos hm]
        exact ih found
      · rw [if_neg hm, if_neg hm, if_pos hkw]
        exact ih (found ++ [p.1])
    · have hr : matchedSaints w (p :: rest) = matchedSaints w rest := by
        unfold matchedSaints
        rw [List.filter_cons, if_neg hkw]
      rw [hr]
      have hstep : (if p.1 ∈ found then found
          else if anyKw (lowerL w.title.data) p.2 then found ++ [p.1] else found) = found := by
        by_cases hm : p.1 ∈ found
        · rw [if_pos hm]
        · rw [if_neg hm, if_neg hkw]
      rw [hstep]
      exact ih found

lemma dedupAcc_append (a b : List String) (found : List String) :
    dedupAcc (a ++ b) found = dedupAcc b (dedupAcc a found) := by
  induction a generalizing found with
  | nil => rfl
  | cons s rest ih =>
    show (if s ∈ found then dedupAcc (rest ++ b) found
          else dedupAcc (rest ++ b) (found ++ [s])) =
      dedupAcc b (if s ∈ found then dedupAcc rest found else dedupAcc rest (found ++ [s]))
    by_cases hm : s ∈ found
    · rw [if_pos hm, if_pos hm, ih]
    · rw [if_neg hm, if_neg hm, ih]

lemma identify_saints_eqAux (contents : List Work) (table : List (String × List String))
    (found : List String) :
    contents.foldl
        (fun found w =>
          table.foldl
            (fun found p =>
              if p.1 ∈ found then found
              else if anyKw (lowerL w.title.data) p.2 then found ++ [p.1] else found)
            found)
        found =
      dedupAcc (contents.flatMap (fun w => matchedSaints w table)) found := by
  induction contents generalizing found with
  | nil => rfl
  | cons w rest ih =>
    rw [List.foldl_cons, List.flatMap_cons, dedupAcc_append, saintStep_eq, ih]

lemma identify_saints_eq (contents : List Work) (table : List (String × List String)) :
    identify_saints contents table =
      dedupAcc (contents.flatMap (fun w => matchedSaints w table)) [] :=
  identify_saints_eqAux contents table []

lemma mem_dedupAcc (l : List String) (found : List String) (s : String) :
    s ∈ dedupAcc l found ↔ s ∈ found ∨ s ∈ l := by
  induction l generalizing found with
  | nil => simp [dedupAcc]
  | cons a rest ih =>
    show s ∈ (if a ∈ found then dedupAcc rest found else dedupAcc rest (found ++ [a])) ↔ _
    by_cases hm : a ∈ found
    · rw [if_pos hm, ih]
      simp only [List.mem_cons]
      constructor
      · rintro (h | h)
        · exact Or.inl h
        · exact Or.inr (Or.inr h)
      · rintro (h | h | h)
        · exact Or.inl h
        · exact Or.inl (h ▸ hm)
        · exact Or.inr h
    · rw [if_neg hm, ih]
      simp only [List.mem_append, List.mem_cons, List.mem_singleton]
      tauto

lemma nodup_dedupAcc (l : List String) (found : List String) (h : found.Nodup) :
    (dedupAcc l found).Nodup := by
  induction l generalizing found with
  | nil => exact h
  | cons a rest ih =>
    show (if a ∈ found then dedupAcc rest found else dedupAcc rest (found ++ [a])).Nodup
    by_cases hm : a ∈ found
    · rw [if_pos hm]
      exact ih found h
    · rw [if_neg hm]
      refine ih _ ?_
      simp [List.nodup_append, h, hm]

/-! ## Lemmas about the label resolver, title parser and regex matchers -/

lemma strat3_ne_empty (entries : List (Node × List Node)) (ll : List Char) (s : String)
    (h : strat3 entries ll = some s) : s ≠ "" := by
  induction entries with
  | nil => simp [strat3] at h
  | cons e rest ih =>
    obtain ⟨d, fol⟩ := e
    have h' : (if hasSub (lowerL (getTextL [] d)) ll && decide ((getTextL [] d).length < 80) then
        match nextTag "td" fol with
        | some sib =>
          if getTextS " " sib == "" then strat3 rest ll else some (getTextS " " sib)
        | none => strat3 rest ll
      else strat3 rest ll) = some s := h
    split at h'
    · split at h'
      · split at h'
        · exact ih h'
        · rename_i hv
          have hs : getTextS " " _ = s := Option.some.inj h'
          intro hemp
          rw [hs, hemp] at hv
          simp at hv
      · exact ih h'
    · exact ih h'

lemma folioMatchAt_noF (l : List Char) (h : ∀ c ∈ l, isFolF c = false) :
    folioMatchAt l = none := by
  cases l with
  | nil => rfl
  | cons c t =>
    have hc := h c (List.mem_cons_self c t)
    unfold folioMatchAt
    simp [hc]

lemma folioSearchL_noF (l : List Char) (h : ∀ c ∈ l, isFolF c = false) :
    folioSearchL l = none := by
  induction l with
  | nil => rfl
  | cons c t ih =>
    show (match folioMatchAt (c :: t) with
          | some n => some ((c :: t).take n)
          | none => folioSearchL t) = none
    rw [folioMatchAt_noF (c :: t) h]
    exact ih (fun x hx => h x (List.mem_cons_of_mem c hx))

lemma splitOnBar_noBar (l : List Char) (h : ∀ c ∈ l, ¬ c = '|') :
    splitOnBar l = [l] := by
  induction l with
  | nil => rfl
  | cons c t ih =>
    have hc : ¬ ((c == '|') = true) := by
      simp only [beq_iff_eq]
      exact h c (List.mem_cons_self c t)
    show (if c == '|' then [] :: splitOnBar t
          else match splitOnBar t with
               | p :: ps => (c :: p) :: ps
               | [] => [[c]]) = [c :: t]
    rw [if_neg hc, ih (fun x hx => h x (List.mem_cons_of_mem c hx))]

lemma takeWhile_exact (p : Char → Bool) (ds rest : List Char)
    (hds : ∀ c ∈ ds, p c = true) (hrest : ∀ c ∈ rest.take 1, p c = false) :
    (ds ++ rest).takeWhile p = ds := by
  induction ds with
  | nil =>
    cases rest with
    | nil => rfl
    | cons r t =>
      show List.takeWhile p (r :: t) = []
      have hr : p r = false := hrest r (by simp)
      simp [List.takeWhile_cons, hr]
  | cons d dt ih =>
    show List.takeWhile p (d :: (dt ++ rest)) = d :: dt
    have hd : p d = true := hds d (List.mem_cons_self d dt)
    rw [List.takeWhile_cons, hd]
    show d :: (dt ++ rest).takeWhile p = d :: dt
    rw [ih (fun c hc => hds c (List.mem_cons_of_mem d hc))]

lemma digitSearchL_decomp (pre ds rest : List Char)
    (hpre : ∀ c ∈ pre, c.isDigit = false)
    (hne : ds ≠ []) (hdig : ∀ c ∈ ds, c.isDigit = true)
    (hrest : ∀ c ∈ rest.take 1, c.isDigit = false) :
    digitSearchL (pre ++ ds ++ rest) = some (String.mk ds) := by
  induction pre with
  | nil =>
    cases ds with
    | nil => exact absurd rfl hne
    | cons d dt =>
      show (if d.isDigit then some (String.mk (d :: (dt ++ rest).takeWhile Char.isDigit))
            else digitSearchL (dt ++ rest)) = some (String.mk (d :: dt))
      rw [if_pos (hdig d (List.mem_cons_self d dt)),
        takeWhile_exact Char.isDigit dt rest (fun c hc => hdig c (List.mem_cons_of_mem d hc)) hrest]
  | cons q qt ih =>
    show (if q.isDigit then some (String.mk (q :: ((qt ++ ds ++ rest).takeWhile Char.isDigit)))
          else digitSearchL (qt ++ ds ++ rest)) = some (String.mk ds)
    rw [if_neg (by rw [hpre q (List.mem_cons_self q qt)]; exact Bool.false_ne_true)]
    exact ih (fun c hc => hpre c (List.mem_cons_of_mem q hc))

lemma dateShortMatch_decomp (ds sp rest : List Char)
    (hne : ds ≠ []) (hdig : ∀ c ∈ ds, c.isDigit = true)
    (hsp : ∀ c ∈ sp, pyIsSpace c = true) :
    dateShortMatch (ds ++ ('e' :: (sp ++ ('s' :: rest)))) =
      some (ds ++ 'e' :: sp ++ 's' :: (if rest.take 1 = ['.'] then ['.'] else [])) := by
  have h1 : (ds ++ ('e' :: (sp ++ ('s' :: rest)))).takeWhile Char.isDigit = ds :=
    takeWhile_exact Char.isDigit ds ('e' :: (sp ++ ('s' :: rest))) hdig
      (by intro c hc; simp at hc; subst hc; decide)
  have h2 : (sp ++ ('s' :: rest)).takeWhile pyIsSpace = sp :=
    takeWhile_exact pyIsSpace sp ('s' :: rest) hsp
      (by intro c hc; simp at hc; subst hc; decide)
  show (if ((ds ++ ('e' :: (sp ++ ('s' :: rest)))).takeWhile Char.isDigit).isEmpty then none
        else
          match (ds ++ ('e' :: (sp ++ ('s' :: rest)))).drop
              ((ds ++ ('e' :: (sp ++ ('s' :: rest)))).takeWhile Char.isDigit).length with
          | 'e' :: r2 =>
            match r2.drop (r2.takeWhile pyIsSpace).length with
            | 's' :: r4 =>
              some ((ds ++ ('e' :: (sp ++ ('s' :: rest)))).takeWhile Char.isDigit ++
                'e' :: r2.takeWhile pyIsSpace ++ 's' :: (if r4.take 1 = ['.'] then ['.'] else []))
            | _ => none
          | _ => none) = _
  rw [h1, List.drop_left, if_neg (by simpa using hne)]
  show (match (sp ++ ('s' :: rest)).drop ((sp ++ ('s' :: rest)).takeWhile pyIsSpace).length with
        | 's' :: r4 =>
          some (ds ++ 'e' :: (sp ++ ('s' :: rest)).takeWhile pyIsSpace ++ 's' ::
            (if r4.take 1 = ['.'] then ['.'] else []))
        | _ => none) =
      some (ds ++ 'e' :: sp ++ 's' :: (if rest.take 1 = ['.'] then ['.'] else []))
  rw [h2, List.drop_left]
  rfl

/-! ## The claims -/

/-- C1 counterexample: on `exDoc1` with label `Langue`, strategy 1 matches
a `dt` whose `dd` sibling has empty text, so `get_field` returns the empty
string even though the `td`/`td` strategy would have produced the
non-empty value `français`.  This falsifies the claim that an empty value
is returned only when no strategy yields a non-empty one. -/
theorem c1_counterexample :
    get_field exDoc1 "Langue" = "" ∧
      strat3 ((descWF exDoc1).filter (fun p => tagIs "td" p.1)) (lowerL "Langue".data) =
        some "français" ∧
      ("français" : String) ≠ "" :=
  ⟨by decide, by decide, by decide⟩

/-- C1 (amended): `get_field` tries the three strategies in order and
returns the result of the first strategy that finds a label match with
the required sibling; strategies 1 and 2 return the paired sibling's
text even when it is empty, only strategy 3 skips empty values (its
result is always non-empty), and the empty string is returned when no
strategy produces a result. -/
theorem c1_get_field_first_match :
    (∀ entries ll s, strat3 entries ll = some s → s ≠ "") ∧
    (∀ root label s,
      strat1 ((descWF root).filter (fun p => tagIs "dt" p.1)) (lowerL label.data) = some s →
        get_field root label = s) ∧
    (∀ root label s,
      strat1 ((descWF root).filter (fun p => tagIs "dt" p.1)) (lowerL label.data) = none →
      strat2 ((descWF root).filter (fun p => tagIs "th" p.1)) (lowerL label.data) = some s →
        get_field root label = s) ∧
    (∀ root label s,
      strat1 ((descWF root).filter (fun p => tagIs "dt" p.1)) (lowerL label.data) = none →
      strat2 ((descWF root).filter (fun p => tagIs "th" p.1)) (lowerL label.data) = none →
      strat3 ((descWF root).filter (fun p => tagIs "td" p.1)) (lowerL label.data) = some s →
        get_field root label = s ∧ s ≠ "") ∧
    (∀ root label,
      strat1 ((descWF root).filter (fun p => tagIs "dt" p.1)) (lowerL label.data) = none →
      strat2 ((descWF root).filter (fun p => tagIs "th" p.1)) (lowerL label.data) = none →
      strat3 ((descWF root).filter (fun p => tagIs "td" p.1)) (lowerL label.data) = none →
        get_field root label = "") := by
  refine ⟨fun entries ll s h => strat3_ne_empty entries ll s h, ?_, ?_, ?_, ?_⟩
  · intro root label s h1
    unfold get_field
    dsimp only
    rw [h1]
  · intro root label s h1 h2
    unfold get_field
    dsimp only
    rw [h1, h2]
  · intro root label s h1 h2 h3
    refine ⟨?_, strat3_ne_empty _ _ s h3⟩
    unfold get_field
    dsimp only
    rw [h1, h2, h3]
  · intro root label h1 h2 h3
    unfold get_field
    dsimp only
    rw [h1, h2, h3]

/-- C1 witness: the amended theorem applied to `exDoc1`, with the
strategy-outcome hypotheses discharged by computation. -/
theorem c1_witness : get_field exDoc1 "Langue" = "" ∧ get_field exDoc1 "Datation" = "" :=
  ⟨c1_get_field_first_match.2.1 exDoc1 "Langue" "" (by decide),
   c1_get_field_first_match.2.2.2.2 exDoc1 "Datation" (by decide) (by decide) (by decide)⟩

/-- C2 counterexample: in `exDoc2` no ancestor of the work link carries
the `temoin` class, so no work-entry container is found by the walk; yet
the emitted entry's folio field is `1r-2v`, filled from the seventh
ancestor that the walk stopped at, falsifying the claim that all
metadata fields stay empty. -/
theorem c2_counterexample :
    ((linksDesc exDoc2 []).map (fun p => p.2.all (fun n => !isTemoin n))) = [true] ∧
      (parse_contents exDoc2).map Work.folio = ["1r-2v"] :=
  ⟨by decide, by decide⟩

/-- C2 (amended): every surviving work link yields an entry in the output
whether or not a container is found; and when the ancestor walk yields no
node at all (it ran past the root before reaching the seventh ancestor),
the entry's folio, date, incipit and explicit fields are all empty.  When
the walk instead stops at a non-`temoin` seventh ancestor, that node is
scanned as if it were the container and the fields may be filled. -/
theorem c2_no_container_entry (root : Node) (link : Node) (anc : List Node) (oid : String)
    (hmem : (link, anc, oid) ∈ dedupTriples ((linksDesc root []).filterMap validTriple) [])
    (hwalk : containerOf anc = none) :
    mkWork link anc oid ∈ parse_contents root ∧
      (mkWork link anc oid).folio = "" ∧ (mkWork link anc oid).date = "" ∧
      (mkWork link anc oid).incipit = "" ∧ (mkWork link anc oid).explicit = "" := by
  constructor
  · show mkWork link anc oid ∈ processLinks true (linksDesc root []) []
    rw [processLinks_eq]
    exact List.mem_map_of_mem _ hmem
  · exact mkWork_noContainer link anc oid hwalk

/-- C2 witness: in `exDoc2w` the link sits directly under the root, the
walk runs past the root, and the amended theorem applies. -/
theorem c2_witness :
    mkWork (.elem "a" [("href", "/consulter/oeuvre/detail_oeuvre.php?oeuvre=5")] [.text "T"])
        [exDoc2w] "5" ∈ parse_contents exDoc2w ∧
      (mkWork (.elem "a" [("href", "/consulter/oeuvre/detail_oeuvre.php?oeuvre=5")] [.text "T"])
        [exDoc2w] "5").folio = "" := by
  have he : dedupTriples ((linksDesc exDoc2w []).filterMap validTriple) [] =
      [(.elem "a" [("href", "/consulter/oeuvre/detail_oeuvre.php?oeuvre=5")] [.text "T"],
        [exDoc2w], "5")] := rfl
  have h := c2_no_container_entry exDoc2w
    (.elem "a" [("href", "/consulter/oeuvre/detail_oeuvre.php?oeuvre=5")] [.text "T"])
    [exDoc2w] "5" (by rw [he]; exact List.mem_singleton.mpr rfl) rfl
  exact ⟨h.1, h.2.1⟩

/-- C3 counterexample: the container text of `exDoc3b` contains the folio
range `12v-45r` with no leading `f`, and the folio field stays empty: the
`f`/`ff` marker of the first reference is required by the pattern, not
optional. -/
theorem c3_counterexample :
    hasSub (getTextL " ".data (Node.elem "div" [("class", "temoin")]
        [ .elem "a" [("href", "/consulter/oeuvre/detail_oeuvre.php?oeuvre=123")] [.text "T"],
          .text " 12v-45r " ])) "12v-45r".data = true ∧
      (parse_contents exDoc3b).map Work.folio = [""] :=
  ⟨by decide, by decide⟩

/-- C3 (amended): the fallback pattern requires an `f`/`F` marker — a text
containing no such letter never matches — while the prefix of the second
folio reference is optional; on a container text carrying `ff. 12v-45r`
the matched span, trimmed, is stored as the folio field. -/
theorem c3_folio_fallback :
    (∀ l : List Char, (∀ c ∈ l, isFolF c = false) → folioSearchL l = none) ∧
      (parse_contents exDoc3).map Work.folio = ["ff. 12v-45r"] :=
  ⟨folioSearchL_noF, by decide⟩

/-- C3 witness: the amended theorem rejects the marker-free text. -/
theorem c3_witness : folioSearchL "12v-45r".data = none :=
  c3_folio_fallback.1 "12v-45r".data (by decide)

/-- C4 counterexample: in `exDoc4` the folio field is produced by the
regex fallback from a 101-digit first reference and has length 104,
exceeding the declared bound of 100: the fallback stores the whole
matched span without truncation. -/
theorem c4_counterexample :
    (parse_contents exDoc4).map (fun w => w.folio.length) = [104] ∧ ¬ (104 ≤ 100) :=
  ⟨by decide, by decide⟩

/-- C4 (amended): on every document every emitted entry satisfies the
bounds for date (100), incipit (400) and explicit (400); the folio bound
of 100 holds for values written by the label/value cell scan (which
truncates), but not for the regex fallback, which stores the untruncated
span. -/
theorem c4_length_bounds :
    (∀ root : Node, ∀ w ∈ parse_contents root,
      w.date.length ≤ 100 ∧ w.incipit.length ≤ 400 ∧ w.explicit.length ≤ 400) ∧
    (∀ (w : Work) (td : Node) (fol : List Node), w.folio.length ≤ 100 →
      (scanTd w td fol).folio.length ≤ 100) := by
  constructor
  · intro root w hw
    have hchar : parse_contents root =
        (dedupTriples ((linksDesc root []).filterMap validTriple) []).map
          (fun t => mkWork t.1 t.2.1 t.2.2) := processLinks_eq _ _
    rw [hchar] at hw
    obtain ⟨t, _, rfl⟩ := List.mem_map.mp hw
    exact mkWork_bnd t.1 t.2.1 t.2.2
  · intro w td fol h
    unfold scanTd
    cases nextTag "td" fol with
    | none => exact h
    | some n =>
      dsimp only
      split
      · exact List.length_take_le _ _
      split
      · exact h
      split
      · exact h
      split
      · exact h
      · exact h

/-- C4 witness: the amended theorem applied to the entry of `exDoc3` and
to a concrete cell scan. -/
theorem c4_witness :
    ({ author := "", title := "Titre", raw_title := "Titre",
       jonas_oeuvre_url :=
         "https://jonas.irht.cnrs.fr/consulter/oeuvre/detail_oeuvre.php?oeuvre=123",
       folio := "ff. 12v-45r", date := "", incipit := "", explicit := "" } : Work).date.length ≤ 100 ∧
    (scanTd
      { author := "", title := "", raw_title := "", jonas_oeuvre_url := "",
        folio := "", date := "", incipit := "", explicit := "" }
      (Node.elem "td" [] [.text "folio"]) [Node.elem "td" [] [.text "1r-2v"]]).folio.length ≤ 100 :=
  ⟨(c4_length_bounds.1 exDoc3 _ (by decide)).1, c4_length_bounds.2 _ _ _ (by decide)⟩

/-- C5: the contents extractor never emits two entries for the same
oeuvre identifier: the reference URLs of the output are pairwise
distinct, the output is exactly the first-occurrence deduplication of
the valid work links mapped through the entry builder (so the first link
per identifier wins, later duplicates are dropped, and output order is
first-encounter order), and each surviving entry's raw title is the text
of its own (first-encountered) link. -/
theorem c5_unique_first_occurrence (root : Node) :
    ((parse_contents root).map Work.jonas_oeuvre_url).Nodup ∧
      parse_contents root =
        (dedupTriples ((linksDesc root []).filterMap validTriple) []).map
          (fun t => mkWork t.1 t.2.1 t.2.2) ∧
      ∀ t ∈ dedupTriples ((linksDesc root []).filterMap validTriple) [],
        (mkWork t.1 t.2.1 t.2.2).raw_title = getTextS "" t.1 := by
  refine ⟨?_, processLinks_eq _ _, fun t _ => (mkWork_fields t.1 t.2.1 t.2.2).1⟩
  have hchar : parse_contents root =
      (dedupTriples ((linksDesc root []).filterMap validTriple) []).map
        (fun t => mkWork t.1 t.2.1 t.2.2) := processLinks_eq _ _
  rw [hchar, List.map_map]
  have hmapeq : (Work.jonas_oeuvre_url ∘ fun t : Node × List Node × String =>
      mkWork t.1 t.2.1 t.2.2) = fun t : Node × List Node × String => oeuvreUrlBase ++ t.2.2 :=
    funext fun t => (mkWork_fields t.1 t.2.1 t.2.2).2.2.2
  rw [hmapeq]
  have hsplit : (fun t : Node × List Node × String => oeuvreUrlBase ++ t.2.2) =
      (fun s => oeuvreUrlBase ++ s) ∘ (fun t : Node × List Node × String => t.2.2) := rfl
  rw [hsplit, ← List.map_map]
  have hids := (dedupTriples_ids ((linksDesc root []).filterMap validTriple) []).1
  refine hids.map ?_
  intro a b hab
  have hab2 : oeuvreUrlBase ++ a = oeuvreUrlBase ++ b := hab
  have hdat : oeuvreUrlBase.data ++ a.data = oeuvreUrlBase.data ++ b.data := by
    rw [← String.data_append, ← String.data_append, hab2]
  exact String.ext (List.append_cancel_left hdat)

/-- C6 counterexample: on the bar-free input consisting of `a` between
spaces, `clean_title` strips the segment, so the returned title is not
the raw input string unchanged. -/
theorem c6_counterexample :
    clean_title " a " = ⟨"", "a"⟩ ∧ clean_title " a " ≠ ⟨"", " a "⟩ :=
  ⟨by decide, by decide⟩

/-- C6 (amended): on a raw title with no bar separator, `clean_title`
returns an empty author and the stripped raw input as title (the raw
input itself when the stripped input is an incipit-reference segment);
in general, after discarding incipit-reference segments, no remaining
segment returns the raw string as title, one remaining segment becomes
the title, and with two or more segments the first is the author and the
second the title.  The function is total, so it returns a value on every
input. -/
theorem c6_clean_title :
    (∀ raw : String, (∀ c ∈ raw.data, ¬ c = '|') →
      clean_title raw =
        (if startsL (stripL raw.data) "Incipit référence".data then
          ⟨"", raw⟩
         else ⟨"", String.mk (stripL raw.data)⟩)) ∧
    (∀ raw : String, segsOf raw = [] → clean_title raw = ⟨"", raw⟩) ∧
    (∀ (raw : String) (p : List Char), segsOf raw = [p] →
      clean_title raw = ⟨"", String.mk p⟩) ∧
    (∀ (raw : String) (p0 p1 : List Char) (rest : List (List Char)),
      segsOf raw = p0 :: p1 :: rest → clean_title raw = ⟨String.mk p0, String.mk p1⟩) := by
  have hmatch : ∀ (raw : String),
      clean_title raw =
        match segsOf raw with
        | [p] => ⟨"", String.mk p⟩
        | p0 :: p1 :: _ => ⟨String.mk p0, String.mk p1⟩
        | [] => ⟨"", raw⟩ := fun raw => rfl
  refine ⟨?_, ?_, ?_, ?_⟩
  · intro raw h
    rw [hmatch raw]
    have hsegs : segsOf raw =
        ([stripL raw.data].filter (fun p => !(startsL p "Incipit référence".data))) := by
      unfold segsOf
      rw [splitOnBar_noBar raw.data h]
      rfl
    rw [hsegs, List.filter_cons]
    by_cases hs : startsL (stripL raw.data) "Incipit référence".data = true
    · rw [if_neg (show ¬ ((!startsL (stripL raw.data) "Incipit référence".data) = true) by
        rw [hs]; simp)]
      rw [List.filter_nil, if_pos hs]
    · have hs2 : startsL (stripL raw.data) "Incipit référence".data = false :=
        Bool.eq_false_iff.mpr hs
      rw [if_pos (show (!startsL (stripL raw.data) "Incipit référence".data) = true by
        rw [hs2]; rfl)]
      rw [List.filter_nil, if_neg hs]
  · intro raw h
    rw [hmatch raw, h]
  · intro raw p h
    rw [hmatch raw, h]
  · intro raw p0 p1 rest h
    rw [hmatch raw, h]

/-- C6 witness: the amended theorem applied to a bar-free input and to a
three-segment input, with the split hypotheses discharged by
computation. -/
theorem c6_witness :
    clean_title " a " = ⟨"", "a"⟩ ∧ clean_title "x|y|z" = ⟨"x", "y"⟩ :=
  ⟨(c6_clean_title.1 " a " (by decide)).trans (by decide),
   c6_clean_title.2.2.2 "x|y|z" "x".data "y".data ["z".data] (by decide)⟩

/-- C7: the saint tagger yields no duplicate identifiers; its output is
exactly the first-occurrence deduplication of the per-work matches in
work order (so the order is that of first matches across the work
sequence); when the keyword table is lowercase — the data model requires
lowercase keywords — an identifier appears exactly when one of its
keywords occurs in the lowercased title of some work; and the sample
works about saint Martin and saint Catherine yield exactly the two
identifiers in first-match order. -/
theorem c7_identify_saints (works : List Work) (table : List (String × List String)) :
    (identify_saints works table).Nodup ∧
      identify_saints works table =
        dedupAcc (works.flatMap (fun w => matchedSaints w table)) [] ∧
      ((∀ p ∈ table, ∀ kw ∈ p.2, lowerL kw.data = kw.data) →
        ∀ s, s ∈ identify_saints works table ↔
          ∃ w ∈ works, ∃ kws, (s, kws) ∈ table ∧
            ∃ kw ∈ kws, hasSub (lowerL w.title.data) kw.data = true) ∧
      identify_saints exWorks7 saintKeywords = ["saint-martin", "saint-catherine"] := by
  refine ⟨?_, identify_saints_eq works table, ?_, by decide⟩
  · rw [identify_saints_eq]
    exact nodup_dedupAcc _ [] List.nodup_nil
  · intro hlow s
    rw [identify_saints_eq, mem_dedupAcc, List.mem_flatMap]
    constructor
    · rintro (h | ⟨w, hw, hs⟩)
      · exact absurd h (List.not_mem_nil s)
      · unfold matchedSaints at hs
        obtain ⟨p, hp, rfl⟩ := List.mem_map.mp hs
        obtain ⟨hptab, hpkw⟩ := List.mem_filter.mp hp
        have hpkw2 : anyKw (lowerL w.title.data) p.2 = true := hpkw
        unfold anyKw at hpkw2
        obtain ⟨kw, hkwmem, hkwsub⟩ := List.any_eq_true.mp hpkw2
        refine ⟨w, hw, p.2, ?_, kw, hkwmem, ?_⟩
        · rw [Prod.mk.eta]
          exact hptab
        · rw [← hlow p hptab kw hkwmem]
          exact hkwsub
    · rintro ⟨w, hw, kws, htab, kw, hkw, hsub⟩
      refine Or.inr ⟨w, hw, ?_⟩
      unfold matchedSaints
      refine List.mem_map.mpr ⟨(s, kws), List.mem_filter.mpr ⟨htab, ?_⟩, rfl⟩
      show anyKw (lowerL w.title.data) kws = true
      unfold anyKw
      refine List.any_eq_true.mpr ⟨kw, hkw, ?_⟩
      show hasSub (lowerL w.title.data) (lowerL kw.data) = true
      rw [hlow (s, kws) htab kw hkw]
      exact hsub

/-- C7 witness: the membership characterisation applied to the sample
works and the shipped (lowercase) keyword table. -/
theorem c7_witness :
    "saint-martin" ∈ identify_saints exWorks7 saintKeywords ∧
      ∃ w ∈ exWorks7, ∃ kws, ("saint-martin", kws) ∈ saintKeywords ∧
        ∃ kw ∈ kws, hasSub (lowerL w.title.data) kw.data = true :=
  ⟨by decide,
   ((c7_identify_saints exWorks7 saintKeywords).2.2.1 (by decide) "saint-martin").mp (by decide)⟩

/-- C8: when both the height and width field strings are non-empty, the
dimensions field is built from the first maximal digit run of each
(stated through an explicit decomposition: a digit-free part, a
non-empty digit run not followed immediately by a further digit, and the
remainder); the field is empty when either string is empty; and the
sample inputs give the sample output. -/
theorem c8_dimensions :
    (∀ hpre hds hrest wpre wds wrest : List Char,
      (∀ c ∈ hpre, c.isDigit = false) → hds ≠ [] → (∀ c ∈ hds, c.isDigit = true) →
      (∀ c ∈ hrest.take 1, c.isDigit = false) →
      (∀ c ∈ wpre, c.isDigit = false) → wds ≠ [] → (∀ c ∈ wds, c.isDigit = true) →
      (∀ c ∈ wrest.take 1, c.isDigit = false) →
      dimensions_of (String.mk (hpre ++ hds ++ hrest)) (String.mk (wpre ++ wds ++ wrest)) =
        String.mk hds ++ " × " ++ String.mk wds ++ " mm") ∧
    (∀ h w : String, h = "" ∨ w = "" → dimensions_of h w = "") ∧
    dimensions_of "297 mm (hauteur)" "210" = "297 × 210 mm" := by
  refine ⟨?_, ?_, by decide⟩
  · intro hpre hds hrest wpre wds wrest h1 h2 h3 h4 w1 w2 w3 w4
    unfold dimensions_of
    rw [if_pos ?both]
    case both =>
      constructor
      · intro he
        have hX : hpre ++ hds ++ hrest = ([] : List Char) := congrArg String.data he
        exact h2 (List.append_eq_nil.mp (List.append_eq_nil.mp hX).1).2
      · intro he
        have hX : wpre ++ wds ++ wrest = ([] : List Char) := congrArg String.data he
        exact w2 (List.append_eq_nil.mp (List.append_eq_nil.mp hX).1).2
    rw [show (String.mk (hpre ++ hds ++ hrest)).data = hpre ++ hds ++ hrest from rfl,
      show (String.mk (wpre ++ wds ++ wrest)).data = wpre ++ wds ++ wrest from rfl,
      digitSearchL_decomp hpre hds hrest h1 h2 h3 h4,
      digitSearchL_decomp wpre wds wrest w1 w2 w3 w4]
  · intro h w hor
    unfold dimensions_of
    rw [if_neg]
    intro hand
    rcases hor with he | he
    · exact hand.1 he
    · exact hand.2 he

/-- C8 witness: the decomposition theorem applied to the sample height
and width fields, and the empty-field clause applied to an empty
height. -/
theorem c8_witness :
    dimensions_of (String.mk ([] ++ "297".data ++ " mm (hauteur)".data))
        (String.mk ([] ++ "210".data ++ [])) = "297 × 210 mm" ∧
      dimensions_of "" "210" = "" :=
  ⟨(c8_dimensions.1 [] "297".data " mm (hauteur)".data [] "210".data []
      (by decide) (by decide) (by decide) (by decide)
      (by decide) (by decide) (by decide) (by decide)).trans (by decide),
   c8_dimensions.2.1 "" "210" (Or.inl rfl)⟩

/-- C9: when the date string decomposes as a non-empty digit run, the
letter e, whitespace, the letter s and a remainder, the short date is
that leading match (including the period exactly when the remainder
starts with one); when the leading pattern does not match, the short
date is the first 12 characters; and the two sample inputs give the
sample outputs. -/
theorem c9_date_short :
    (∀ ds sp rest : List Char, ds ≠ [] → (∀ c ∈ ds, c.isDigit = true) →
      (∀ c ∈ sp, pyIsSpace c = true) →
      date_short_of (String.mk (ds ++ ('e' :: (sp ++ ('s' :: rest))))) =
        String.mk (ds ++ 'e' :: sp ++ 's' :: (if rest.take 1 = ['.'] then ['.'] else []))) ∧
    (∀ d : String, dateShortMatch d.data = none →
      date_short_of d = String.mk (d.data.take 12)) ∧
    date_short_of "13e s. (entre 1230 et 1250)" = "13e s." ∧
    date_short_of "vers 1400" = "vers 1400" := by
  refine ⟨?_, ?_, by decide, by decide⟩
  · intro ds sp rest hne hdig hsp
    unfold date_short_of
    rw [show (String.mk (ds ++ ('e' :: (sp ++ ('s' :: rest))))).data =
        ds ++ ('e' :: (sp ++ ('s' :: rest))) from rfl,
      dateShortMatch_decomp ds sp rest hne hdig hsp]
  · intro d h
    unfold date_short_of
    rw [h]

/-- C9 witness: the decomposition theorem applied to a century date with
a period, and the truncation clause applied to a long pattern-free
date. -/
theorem c9_witness :
    date_short_of (String.mk ("14".data ++ ('e' :: (" ".data ++ ('s' :: ". xx".data))))) =
      String.mk ("14".data ++ 'e' :: " ".data ++ 's' ::
        (if ". xx".data.take 1 = ['.'] then ['.'] else [])) ∧
    date_short_of "vers 1400 environ plus" = String.mk ("vers 1400 environ plus".data.take 12) :=
  ⟨c9_date_short.1 "14".data " ".data ". xx".data (by decide) (by decide) (by decide),
   c9_date_short.2.1 "vers 1400 environ plus" (by decide)⟩

/-- C10: the relative-URL rewrite of `parse_contents` has no effect on
the output: on every document the extractor with the rewrite and the
variant without it produce the same entry sequence, because the rewrite
only removes leading dots and slashes, which can neither create nor
destroy an occurrence of the identifier pattern, and the stored
reference URL is rebuilt from the fixed template rather than taken from
the rewritten target. -/
theorem c10_rewrite_no_effect (root : Node) :
    parse_contents root = parse_contents_norw root :=
  processLinks_norm (linksDesc root []) []

/-- C5 witness: uniqueness and title retention instantiated on `exDoc3`,
with the membership hypothesis discharged by computation. -/
theorem c5_witness :
    ((parse_contents exDoc3).map Work.jonas_oeuvre_url).Nodup ∧
      (mkWork
          (.elem "a" [("href", "../../consulter/oeuvre/detail_oeuvre.php?oeuvre=123")]
            [.text "Titre"])
          [Node.elem "div" [("class", "temoin")]
            [.elem "a" [("href", "../../consulter/oeuvre/detail_oeuvre.php?oeuvre=123")]
              [.text "Titre"], .text " ff. 12v-45r "], exDoc3] "123").raw_title =
        getTextS ""
          (.elem "a" [("href", "../../consulter/oeuvre/detail_oeuvre.php?oeuvre=123")]
            [.text "Titre"]) := by
  have h := c5_unique_first_occurrence exDoc3
  refine ⟨h.1, h.2.2
    (.elem "a" [("href", "../../consulter/oeuvre/detail_oeuvre.php?oeuvre=123")]
        [.text "Titre"],
      [Node.elem "div" [("class", "temoin")]
        [.elem "a" [("href", "../../consulter/oeuvre/detail_oeuvre.php?oeuvre=123")]
          [.text "Titre"], .text " ff. 12v-45r "], exDoc3], "123") ?_⟩
  have he : dedupTriples ((linksDesc exDoc3 []).filterMap validTriple) [] =
      [(.elem "a" [("href", "../../consulter/oeuvre/detail_oeuvre.php?oeuvre=123")]
          [.text "Titre"],
        [Node.elem "div" [("class", "temoin")]
          [.elem "a" [("href", "../../consulter/oeuvre/detail_oeuvre.php?oeuvre=123")]
            [.text "Titre"], .text " ff. 12v-45r "], exDoc3], "123")] := rfl
  rw [he]
  exact List.mem_singleton.mpr rfl
